import Mathlib

/-!
Verification development for the mzprof streaming ingestion and aggregation
pipeline.  The definitions below are shallow embeddings of the Rust modules
`src/types.rs`, `src/collect/mod.rs`, `src/collect/subscribe.rs`,
`src/aggregate.rs` and `src/pprof/mod.rs`.

Modelling conventions:
* `u64` identifiers (`OpId`, `WorkerId`) are `Nat`.
* `std::time::Duration` values are `Nat` nanoseconds; `Duration::MAX` is the
  explicit bound `durMax`.  `i64` values are `Int`; where the Rust code can
  panic (failed `try_into().unwrap()`, failed `assert!`, overflowing
  `Duration` addition, indexing a missing map key) the embedding returns
  `Option` with `none` for the panic.
* `BTreeMap` is modelled as an association list (`alGet`/`alSet`/`alUpd`)
  whose insert updates an existing key in place.  All maps built by the
  program have pairwise-distinct keys, so lookups agree with the map; the
  one computation that walks a map's iteration order (the exclusive-time
  conversion) is proved order-independent, so the list order chosen here is
  immaterial.
-/

namespace Mzprof

abbrev OpId := Nat
abbrev WorkerId := Nat

/-- `types.rs`: operator metadata as constructed by `subscribe.rs`
(`OpInfo { name, address }`); the address is the nesting path. -/
structure OpInfo where
  name : String
  address : List Nat
  deriving Repr, DecidableEq

/-- `types.rs` `Address::ancestors`: `(1..len).map(|i| prefix of length i).rev()`
— all proper non-empty prefixes, nearest (longest) first. -/
def ancestors (a : List Nat) : List (List Nat) :=
  ((List.range' 1 (a.length - 1)).map (fun i => a.take i)).reverse

/-- `types.rs` `Address::parent`: `self.ancestors().next()`. -/
def parentAddr (a : List Nat) : Option (List Nat) :=
  (ancestors a).head?

/-- `collect/mod.rs` `Data`: the three feed payloads. -/
inductive Data where
  | Operator (id : OpId) (info : OpInfo)
  | Elapsed (id : OpId) (worker : WorkerId)
  | Size (id : OpId) (worker : WorkerId)
  deriving Repr, DecidableEq

/-- `collect/mod.rs` `Update`: a differential change. -/
structure Update where
  data : Data
  time : Nat
  diff : Int
  deriving Repr, DecidableEq

/-- `collect/mod.rs` `Batch`: a watermark plus the updates drained before it. -/
structure Batch where
  time : Nat
  updates : List Update
  deriving Repr, DecidableEq

/-- Association-list lookup (models `BTreeMap::get`). -/
def alGet {κ ν : Type} [DecidableEq κ] : List (κ × ν) → κ → Option ν
  | [], _ => none
  | e :: r, k => if e.1 = k then some e.2 else alGet r k

/-- Association-list insert (models `BTreeMap::insert`): replaces the value of
an existing key, otherwise appends. -/
def alSet {κ ν : Type} [DecidableEq κ] : List (κ × ν) → κ → ν → List (κ × ν)
  | [], k, v => [(k, v)]
  | e :: r, k, v => if e.1 = k then (k, v) :: r else e :: alSet r k v

/-- Models `BTreeMap::entry(k).and_modify(f).or_insert(d)`. -/
def alUpd {κ ν : Type} [DecidableEq κ] : List (κ × ν) → κ → (ν → ν) → ν → List (κ × ν)
  | [], k, _, d => [(k, d)]
  | e :: r, k, f, d => if e.1 = k then (e.1, f e.2) :: r else e :: alUpd r k f d

/-- Models `BTreeMap::get_mut(k)` followed by an in-place update: a missing
key leaves the map unchanged. -/
def alModify {κ ν : Type} [DecidableEq κ] : List (κ × ν) → κ → (ν → ν) → List (κ × ν)
  | [], _, _ => []
  | e :: r, k, f => if e.1 = k then (e.1, f e.2) :: r else e :: alModify r k f

/-- `i64::MAX`. -/
def i64Max : Int := 2 ^ 63 - 1

/-- `i64::MIN`. -/
def i64Min : Int := -(2 ^ 63)

/-- `i64::saturating_sub`: exact difference clamped to the `i64` range. -/
def satSub (a b : Int) : Int := max (min (a - b) i64Max) i64Min

/-- `Duration::MAX` in nanoseconds (`u64::MAX` seconds + 999 999 999 ns). -/
def durMax : Nat := (2 ^ 64 - 1) * 1000000000 + 999999999

/-! ## Aggregator (`src/aggregate.rs`) -/

/-- `aggregate.rs` `Aggregator`: start time, operator directory, cumulative
elapsed nanoseconds and cumulative signed sizes. -/
structure Aggregator where
  start : Option Nat
  operators : List (OpId × OpInfo)
  elapsed : List ((OpId × WorkerId) × Nat)
  sizes : List ((OpId × WorkerId) × Int)
  deriving Repr, DecidableEq

/-- `Aggregator::new`. -/
def Aggregator.new : Aggregator := ⟨none, [], [], []⟩

/-- `Aggregator::update_operator`: insert into the directory only for
`diff > 0`. -/
def updateOperator (a : Aggregator) (id : OpId) (info : OpInfo) (diff : Int) : Aggregator :=
  if 0 < diff then { a with operators := alSet a.operators id info } else a

/-- `Aggregator::update_elapsed`: `u64::try_from(diff)` succeeds exactly for
`0 ≤ diff`; the nanoseconds are accumulated, negative diffs are dropped. -/
def updateElapsed (a : Aggregator) (id : OpId) (worker : WorkerId) (diff : Int) : Aggregator :=
  if 0 ≤ diff then
    { a with elapsed := alUpd a.elapsed (id, worker) (fun x => x + diff.toNat) diff.toNat }
  else a

/-- `Aggregator::update_size`: accumulate the signed diff; no other field of
the aggregator is touched. -/
def updateSize (a : Aggregator) (id : OpId) (worker : WorkerId) (diff : Int) : Aggregator :=
  { a with sizes := alUpd a.sizes (id, worker) (fun x => x + diff) diff }

/-- The per-update dispatch inside `Aggregator::update`. -/
def applyUpdate (a : Aggregator) (u : Update) : Aggregator :=
  match u.data with
  | .Operator id info => updateOperator a id info u.diff
  | .Elapsed id worker => updateElapsed a id worker u.diff
  | .Size id worker => updateSize a id worker u.diff

/-- `Aggregator::update`: record the first batch time, then fold the updates. -/
def updateAgg (a : Aggregator) (b : Batch) : Aggregator :=
  let a' := if a.start.isNone then { a with start := some b.time } else a
  b.updates.foldl applyUpdate a'

/-! ## Exclusive-time conversion (`Aggregator::build_pprof`, first half) -/

/-- `build_pprof`: `ops_by_address` is collected from the directory; a later
duplicate address overwrites an earlier one, as `BTreeMap::insert` does. -/
def opsByAddress (ops : List (OpId × OpInfo)) : List (List Nat × OpId) :=
  ops.foldl (fun m e => alSet m e.2.address e.1) []

/-- The `and_then` chain of `build_pprof` (aggregate.rs:94-99) that resolves
the (id, worker) entry to its parent's (id, worker) counter key: operator
lookup, `Address::parent`, `ops_by_address` lookup.  Any missing link yields
`none` (the entry is skipped). -/
def parentKey (ops : List (OpId × OpInfo)) (oba : List (List Nat × OpId))
    (k : OpId × WorkerId) : Option (OpId × WorkerId) := do
  let op ← alGet ops k.1
  let pa ← parentAddr op.address
  let pid ← alGet oba pa
  pure (pid, k.2)

/-- Raw cumulative value read from the untouched `self.elapsed` snapshot, as
an `i64`. -/
def rawNs (el : List ((OpId × WorkerId) × Nat)) (k : OpId × WorkerId) : Int :=
  ((alGet el k).getD 0 : Nat)

/-- One iteration of the conversion loop (aggregate.rs:93-105): resolve the
parent counter; if it exists in `elapsed_ns`, saturating-subtract the child's
raw cumulative value from it. -/
def convStep (raw : OpId × WorkerId → Int) (pk : OpId × WorkerId → Option (OpId × WorkerId))
    (m : List ((OpId × WorkerId) × Int)) (k : OpId × WorkerId) :
    List ((OpId × WorkerId) × Int) :=
  match pk k with
  | none => m
  | some p => alModify m p (fun v => satSub v (raw k))

/-- The whole conversion: copy `elapsed` into `elapsed_ns`, then run the loop
over `self.elapsed.iter().rev()`. -/
def convertElapsed (ops : List (OpId × OpInfo)) (el : List ((OpId × WorkerId) × Nat)) :
    List ((OpId × WorkerId) × Int) :=
  (el.map Prod.fst).reverse.foldl
    (convStep (rawNs el) (parentKey ops (opsByAddress ops)))
    (el.map (fun e => (e.1, (e.2 : Int))))

/-- The conversion including the two `as_nanos().try_into().unwrap()` calls
(aggregate.rs:86 and :102): they panic exactly when some cumulative duration
exceeds `i64::MAX` nanoseconds, modelled by `none`. -/
def convertElapsedChecked (ops : List (OpId × OpInfo))
    (el : List ((OpId × WorkerId) × Nat)) : Option (List ((OpId × WorkerId) × Int)) :=
  if el.all (fun e => decide ((e.2 : Int) ≤ i64Max)) then some (convertElapsed ops el)
  else none

/-- Sum of the raw cumulative values of the `elapsed` entries whose parent
counter resolves to `k` — "the children of `k` with the same worker". -/
def childSum (ops : List (OpId × OpInfo)) (el : List ((OpId × WorkerId) × Nat))
    (k : OpId × WorkerId) : Int :=
  (((el.map Prod.fst).filter fun c =>
      parentKey ops (opsByAddress ops) c = some k).map (rawNs el)).sum

/-! ## Multiplexing Collector (`src/collect/mod.rs`) -/

/-- The collector state owned by `into_stream`: last watermark per feed and
the time-bucketed stash.  The stash list is kept sorted by bucket key, the
`BTreeMap` order. -/
structure CState where
  progress : List (Nat × Nat)
  stash : List (Nat × List Update)
  deriving Repr, DecidableEq

/-- `self.progress.remove(&id)` on a closed feed. -/
def removeProgress (p : List (Nat × Nat)) (f : Nat) : List (Nat × Nat) :=
  p.filter (fun e => e.1 ≠ f)

/-- `Collector::frontier`: `self.progress.values().min()`. -/
def frontierOpt (p : List (Nat × Nat)) : Option Nat :=
  match p.map Prod.snd with
  | [] => none
  | w :: ws => some (ws.foldl Nat.min w)

/-- `self.stash.entry(update.time).or_default().push(update)`, on the sorted
bucket list. -/
def stashInsert (s : List (Nat × List Update)) (u : Update) : List (Nat × List Update) :=
  match s with
  | [] => [(u.time, [u])]
  | (k, us) :: r =>
    if u.time < k then (u.time, [u]) :: (k, us) :: r
    else if u.time = k then (k, us ++ [u]) :: r
    else (k, us) :: stashInsert r u

/-- `Collector::absorb_batch`: record the feed's watermark, stash the updates
by their own time, then drain every leading bucket strictly below the
frontier (the `pop_first` loop on the sorted map). -/
def absorbBatch (st : CState) (f : Nat) (b : Batch) : CState × List Batch :=
  let p := alSet st.progress f b.time
  let s := b.updates.foldl stashInsert st.stash
  let fr := (frontierOpt p).getD 0
  (⟨p, s.dropWhile (fun e => e.1 < fr)⟩,
   (s.takeWhile (fun e => e.1 < fr)).map (fun e => ⟨e.1, e.2⟩))

/-- One event of the fan-in loop in `Collector::into_stream`: either a feed
delivers a batch, or a feed's subscription closes. -/
inductive Ev where
  | batch (f : Nat) (b : Batch)
  | close (f : Nat)
  deriving Repr, DecidableEq

/-- One iteration of the `into_stream` loop: a batch is absorbed and the
ready batches are yielded; a close only removes the feed's progress entry. -/
def step (st : CState) (e : Ev) : CState × List Batch :=
  match e with
  | .batch f b => absorbBatch st f b
  | .close f => (⟨removeProgress st.progress f, st.stash⟩, [])

/-- Run the collector loop over a whole event trace, collecting every yielded
batch in order. -/
def runC (st : CState) : List Ev → CState × List Batch
  | [] => (st, [])
  | e :: tr =>
    let r1 := step st e
    let r2 := runC r1.1 tr
    (r2.1, r1.2 ++ r2.2)

/-- `Collector::subscribe` seeds `progress[feed] = Duration::ZERO` for every
feed before the loop starts. -/
def initCState (fs : List Nat) : CState := ⟨fs.map (fun f => (f, 0)), []⟩

def evFeed : Ev → Nat
  | .batch f _ => f
  | .close f => f

/-- Watermark invariant, part 1: every update in a batch is strictly below
the batch's own time. -/
def selfContained : Ev → Bool
  | .batch _ b => b.updates.all (fun u => u.time < b.time)
  | .close _ => true

/-- Batches come only from subscribed feeds. -/
def batchKnown (fs : List Nat) : Ev → Bool
  | .batch f _ => decide (f ∈ fs)
  | .close _ => true

/-- Watermark invariant, part 2, plus feed lifecycle: after a feed emits a
watermark, none of its later updates lies below it; after a feed closes it
emits nothing at all. -/
def feedDiscipline : List Ev → Bool
  | [] => true
  | .batch f b :: tr =>
    (tr.all fun e =>
      match e with
      | .batch g b2 => decide (g ≠ f) || b2.updates.all (fun u => b.time ≤ u.time)
      | .close _ => true) && feedDiscipline tr
  | .close f :: tr =>
    (tr.all fun e => decide (evFeed e ≠ f)) && feedDiscipline tr

/-- A trace of interleaved per-feed batches satisfying the watermark
invariant assumed by the frontier-safety claim. -/
def validTrace (fs : List Nat) (tr : List Ev) : Bool :=
  tr.all (fun e => selfContained e && batchKnown fs e) && feedDiscipline tr

/-- The stash bucket keys are strictly increasing (the `BTreeMap` order). -/
def stashSorted (s : List (Nat × List Update)) : Prop :=
  List.Pairwise (fun a b => a.1 < b.1) s

/-- Every stashed update sits in the bucket of its own time. -/
def stashTimes (s : List (Nat × List Update)) : Prop :=
  ∀ e ∈ s, ∀ u ∈ e.2, u.time = e.1

/-- Every future update of a feed lies at or above that feed's currently
recorded watermark. -/
def futBound (p : List (Nat × Nat)) (tr : List Ev) : Prop :=
  ∀ fw ∈ p, ∀ b : Batch, Ev.batch fw.1 b ∈ tr → ∀ u ∈ b.updates, fw.2 ≤ u.time

/-- Every batch in the trace comes from a feed present in the progress map. -/
def domOK (p : List (Nat × Nat)) (tr : List Ev) : Prop :=
  ∀ f b, Ev.batch f b ∈ tr → f ∈ p.map Prod.fst

/-- Every update carried by the trace lies at or above the bound. -/
def batchLB (lb : Nat) (tr : List Ev) : Prop :=
  ∀ f b, Ev.batch f b ∈ tr → ∀ u ∈ b.updates, lb ≤ u.time

/-! ## Source Subscription (`src/collect/subscribe.rs`) -/

/-- `subscribe.rs` `Mode`. -/
inductive Mode where
  | snapshot
  | continual (duration : Option Nat)
  deriving Repr, DecidableEq

/-- A raw subscription row: the `mz_progressed` flag, the `mz_timestamp`
value, and — for data rows — the result of `spec.parse_update(row)` (`none`
models a parse error). -/
structure Row where
  progress : Bool
  time : Nat
  upd : Option Update
  deriving Repr, DecidableEq

/-- The mutable state of `Subscribe`: the computed cutoff (`None` before the
first row), the pending updates, and whether the row stream is still open. -/
structure SubState where
  upTo : Option Nat
  stash : List Update
  streamOpen : Bool
  deriving Repr, DecidableEq

/-- Fresh `Subscribe` state as built by `Subscribe::start`. -/
def SubState.start : SubState := ⟨none, [], true⟩

/-- `Subscribe::absorb_row` (subscribe.rs:52-85).  The outer `none` models a
panic: the failed `assert!(progress)` on a first data row, a parse error, or
an overflowing `Duration` addition in `time + d`. -/
def absorbRow (mode : Mode) (st : SubState) (r : Row) : Option (SubState × Option Batch) :=
  match st.upTo with
  | none =>
    if r.progress then
      match mode with
      | .snapshot => some ({ st with upTo := some r.time }, none)
      | .continual (some d) =>
        if r.time + d ≤ durMax then some ({ st with upTo := some (r.time + d) }, none)
        else none
      | .continual none => some ({ st with upTo := some durMax }, none)
    else none
  | some upTo =>
    if r.progress then
      some ({ st with
                stash := []
                streamOpen := if upTo < r.time then false else st.streamOpen },
            some ⟨r.time, st.stash⟩)
    else
      if r.time ≤ upTo then
        match r.upd with
        | some u => some ({ st with stash := st.stash ++ [u] }, none)
        | none => none
      else
        some (st, none)

/-- "Modelled from the spec"-free parse of a size row, from `Size::parse`
(subscribe.rs:212-216): `row.get::<i64, _>` fails (fatally) when the column
is SQL NULL, and `try_into::<u64>()?` fails on a negative value.  The row's
two columns are given as optional `i64`s, `none` meaning NULL. -/
def sizeParse (operatorId : Option Int) (workerId : Option Int) : Option Data := do
  let o ← operatorId
  let w ← workerId
  let oid ← if 0 ≤ o then some o.toNat else none
  let wid ← if 0 ≤ w then some w.toNat else none
  pure (Data.Size oid wid)

/-! ## Profile builder (`src/pprof/mod.rs` `StringTable`, `src/aggregate.rs`
`ProfileBuilder`) -/

def emptyName : String := ""
def unknownName : String := "<unknown>"
def workerName : String := "worker"
def timeName : String := "time"
def nanosName : String := "nanoseconds"
def sizeName : String := "size"
def bytesName : String := "bytes"

/-- `pprof::StringTable::insert`: return the index of an existing string, or
assign the next index (`map.len()`). -/
def stInsert (st : List (String × Int)) (s : String) : List (String × Int) × Int :=
  match alGet st s with
  | some i => (st, i)
  | none => (st ++ [(s, (st.length : Int))], (st.length : Int))

/-- `pp::Sample` (the fields `ProfileBuilder` fills). -/
structure Sample where
  locationId : List Nat
  value : List Int
  label : List (Int × Int)
  deriving Repr, DecidableEq

/-- `pp::ValueType`. -/
structure ValueType where
  ty : Int
  unitIdx : Int
  deriving Repr, DecidableEq

/-- `pp::Function` (the fields `ProfileBuilder` fills). -/
structure FunctionEntry where
  id : Nat
  name : Int
  deriving Repr, DecidableEq

/-- `pp::Location` (the fields `ProfileBuilder` fills; `line` holds the
function ids of the single `pp::Line`). -/
structure LocationEntry where
  id : Nat
  addr : Nat
  line : List Nat
  deriving Repr, DecidableEq

/-- `aggregate.rs` `ProfileBuilder`. -/
structure PB where
  stringTable : List (String × Int)
  locations : List (Nat × LocationEntry)
  functions : List (Nat × FunctionEntry)
  sampleTypes : List ValueType
  samples : List ((OpId × WorkerId) × Sample)
  opAddrsById : List (OpId × List Nat)
  opIdsByAddr : List (List Nat × OpId)
  time : Option Nat
  deriving Repr, DecidableEq

/-- `ProfileBuilder::new` plus `StringTable::new` (index 0 is the empty
string). -/
def PB.new : PB := ⟨[(emptyName, 0)], [], [], [], [], [], [], none⟩

/-- `ProfileBuilder::add_location`. -/
def addLocation (pb : PB) (id : Nat) (name : String) : PB :=
  let r := stInsert pb.stringTable name
  { pb with
      stringTable := r.1
      functions := alSet pb.functions id ⟨id, r.2⟩
      locations := alSet pb.locations id ⟨id, id, [id]⟩ }

/-- `ProfileBuilder::add_operator`. -/
def addOperator (pb : PB) (id : OpId) (info : OpInfo) : PB :=
  let pb1 := addLocation pb id info.name
  { pb1 with
      opAddrsById := alSet pb1.opAddrsById id info.address
      opIdsByAddr := alSet pb1.opIdsByAddr info.address id }

/-- The ancestor loop of `build_operator_stack`: `self.op_ids_by_addr[&addr]`
is a panicking index, modelled by `none` when an ancestor address is
unknown. -/
def stackLookup (oia : List (List Nat × OpId)) : List (List Nat) → List Nat → Option (List Nat)
  | [], acc => some acc
  | a :: r, acc =>
    match alGet oia a with
    | some pid => stackLookup oia r (acc ++ [pid])
    | none => none

/-- `ProfileBuilder::build_operator_stack`: known operators get their
ancestor chain appended; unknown operators get a placeholder location. -/
def buildOperatorStack (pb : PB) (id : OpId) : Option (PB × List Nat) :=
  match alGet pb.opAddrsById id with
  | some addr => (stackLookup pb.opIdsByAddr (ancestors addr) [id]).map (fun s => (pb, s))
  | none =>
    if (alGet pb.locations id).isSome then some (pb, [id])
    else some (addLocation pb id unknownName, [id])

/-- `sample.value[len - 1] = value`: a panicking index assignment, modelled
by `none` when out of bounds. -/
def setValueAt (smp : Sample) (len : Nat) (v : Int) : Option Sample :=
  if len - 1 < smp.value.length then some { smp with value := smp.value.set (len - 1) v }
  else none

/-- The tail of the `add_samples` loop body: `self.samples.get_mut(&key)`
(present by construction) followed by the last-slot assignment. -/
def setSampleValue (len : Nat) (k : OpId × WorkerId) (v : Int) (pb1 : PB) : Option PB :=
  match alGet pb1.samples k with
  | none => none
  | some smp =>
    match setValueAt smp len v with
    | none => none
    | some smp2 => some { pb1 with samples := alSet pb1.samples k smp2 }

/-- The per-entry body of the `for (&key, &value) in samples` loop in
`ProfileBuilder::add_samples`: create the sample (with its stack, zero value
vector and worker label) if missing, then set the last value slot. -/
def addOneSample (len : Nat) (pb : PB) (k : OpId × WorkerId) (v : Int) : Option PB :=
  if (alGet pb.samples k).isSome then setSampleValue len k v pb
  else
    match buildOperatorStack pb k.1 with
    | none => none
    | some r =>
      let r1 := stInsert r.1.stringTable workerName
      let r2 := stInsert r1.1 (toString k.2)
      let smp : Sample := ⟨r.2, List.replicate len 0, [(r1.2, r2.2)]⟩
      setSampleValue len k v
        { r.1 with stringTable := r2.1, samples := alSet r.1.samples k smp }

/-- The `for` loop of `add_samples` over the new column's data. -/
def addSamplesGo (len : Nat) : PB → List ((OpId × WorkerId) × Int) → Option PB
  | pb, [] => some pb
  | pb, e :: r =>
    match addOneSample len pb e.1 e.2 with
    | none => none
    | some pb2 => addSamplesGo len pb2 r

/-- `ProfileBuilder::add_samples`: register the (type, unit) sample type,
append a zero to every existing sample's value vector, then fold the new
column's data. -/
def addSamples (pb : PB) (tyS unS : String) (col : List ((OpId × WorkerId) × Int)) :
    Option PB :=
  let r1 := stInsert pb.stringTable tyS
  let r2 := stInsert r1.1 unS
  let pb1 := { pb with
      stringTable := r2.1
      sampleTypes := pb.sampleTypes ++ [⟨r1.2, r2.2⟩]
      samples := pb.samples.map (fun e => (e.1, { e.2 with value := e.2.value ++ [0] })) }
  addSamplesGo pb1.sampleTypes.length pb1 col

/-- `pp::Profile` (the fields the builder fills). -/
structure Profile where
  timeNanos : Int
  functionList : List FunctionEntry
  locationList : List LocationEntry
  sampleTypeList : List ValueType
  sampleList : List Sample
  stringTable : List String
  deriving Repr, DecidableEq

/-- `StringTable::finish`: sort the (string, index) pairs by index and keep
the strings. -/
def stFinish (st : List (String × Int)) : List String :=
  (st.mergeSort (fun a b => a.2 ≤ b.2)).map Prod.fst

/-- `ProfileBuilder::build`: `time_nanos` (with its panicking `try_into`),
then the collected tables. -/
def PB.build (pb : PB) : Option Profile := do
  let tn ←
    match pb.time with
    | some t => if (t : Int) ≤ i64Max then some (t : Int) else none
    | none => some 0
  pure ⟨tn,
    (pb.functions.mergeSort (fun a b => a.1 ≤ b.1)).map Prod.snd,
    (pb.locations.mergeSort (fun a b => a.1 ≤ b.1)).map Prod.snd,
    pb.sampleTypes,
    (pb.samples.mergeSort (fun a b => decide (a.1 ≤ b.1))).map Prod.snd,
    stFinish pb.stringTable⟩

/-- `Aggregator::build_pprof`: set the time, register every operator, derive
and add the exclusive-time column when `elapsed` is non-empty, add the size
column when `sizes` is non-empty, and build. -/
def buildPprof (a : Aggregator) : Option Profile := do
  let pb0 := PB.new
  let pb1 :=
    match a.start with
    | some t => { pb0 with time := some t }
    | none => pb0
  let pb2 := a.operators.foldl (fun pb e => addOperator pb e.1 e.2) pb1
  let pb3 ←
    if a.elapsed.isEmpty then some pb2
    else do
      let ens ← convertElapsedChecked a.operators a.elapsed
      addSamples pb2 timeName nanosName ens
  let pb4 ←
    if a.sizes.isEmpty then some pb3
    else addSamples pb3 sizeName bytesName a.sizes
  pb4.build

/-! ## Concrete fixtures used by witnesses and counterexamples -/

/-- A parent operator at address `[0]`. -/
def opP : OpInfo := ⟨emptyName, [0]⟩

/-- A child operator at address `[0, 0]`. -/
def opC : OpInfo := ⟨emptyName, [0, 0]⟩

/-- A two-operator directory: 1 is the parent of 2. -/
def opsTwo : List (OpId × OpInfo) := [(1, opP), (2, opC)]

/-- Parent cumulative 100 ns, child cumulative 30 ns. -/
def elHundred : List ((OpId × WorkerId) × Nat) := [((1, 0), 100), ((2, 0), 30)]

/-- Parent cumulative 10 ns, child cumulative 30 ns (child exceeds parent). -/
def elTen : List ((OpId × WorkerId) × Nat) := [((1, 0), 10), ((2, 0), 30)]

/-- An update at logical time 5. -/
def updFive : Update := ⟨.Elapsed 1 0, 5, 1⟩

/-- An update at logical time 1. -/
def updOne : Update := ⟨.Elapsed 1 0, 1, 1⟩

/-- Feed 0 delivers an update at time 5 under watermark 10, then both feeds
close while feed 1 never reported past 0. -/
def trShutdown : List Ev := [.batch 0 ⟨10, [updFive]⟩, .close 0, .close 1]

/-- Feed 0 delivers an update at time 1 under watermark 2, then feed 1
reports watermark 3, making the update releasable. -/
def trOrdered : List Ev := [.batch 0 ⟨2, [updOne]⟩, .batch 1 ⟨3, []⟩]

/-- Is the event a close event? -/
def isClose : Ev → Bool
  | .batch _ _ => false
  | .close _ => true

/-- First step of the C9 scenario: a "time" column with data for operators
1 and 2 (worker 0). -/
def pbStep1 : PB :=
  (addSamples PB.new timeName nanosName [((1, 0), 100), ((2, 0), 200)]).getD PB.new

/-- Second step of the C9 scenario: a "size" column with data for operator 1
only. -/
def pbStep2 : PB :=
  (addSamples pbStep1 sizeName bytesName [((1, 0), 500)]).getD PB.new

/-! ## Association-list lemmas -/

theorem alGet_alUpd {κ ν : Type} [DecidableEq κ] (m : List (κ × ν)) (k : κ) (f : ν → ν)
    (d : ν) : alGet (alUpd m k f d) k = some ((alGet m k).elim d f) := by
  induction m with
  | nil => simp [alUpd, alGet]
  | cons e r ih =>
    by_cases h : e.1 = k
    · simp [alUpd, alGet, h]
    · simp [alUpd, alGet, h, ih]

theorem alGet_alModify_self {κ ν : Type} [DecidableEq κ] (m : List (κ × ν)) (k : κ)
    (f : ν → ν) : alGet (alModify m k f) k = (alGet m k).map f := by
  induction m with
  | nil => simp [alModify, alGet]
  | cons e r ih =>
    by_cases h : e.1 = k
    · simp [alModify, alGet, h]
    · simp [alModify, alGet, h, ih]

theorem alGet_alModify_ne {κ ν : Type} [DecidableEq κ] (m : List (κ × ν)) (k q : κ)
    (f : ν → ν) (h : q ≠ k) : alGet (alModify m k f) q = alGet m q := by
  induction m with
  | nil => simp [alModify]
  | cons e r ih =>
    by_cases he : e.1 = k
    · simp [alModify, alGet, he, Ne.symm h]
    · by_cases hq : e.1 = q
      · simp [alModify, alGet, he, hq, h]
      · simp [alModify, alGet, he, hq, ih]

theorem alGet_mapVal {κ ν μ : Type} [DecidableEq κ] (g : ν → μ) (m : List (κ × ν)) (q : κ) :
    alGet (m.map (fun e => (e.1, g e.2))) q = (alGet m q).map g := by
  induction m with
  | nil => rfl
  | cons e r ih =>
    by_cases h : e.1 = q
    · simp [alGet, h]
    · simp [alGet, h, ih]

theorem mem_alSet_imp {κ ν : Type} [DecidableEq κ] (m : List (κ × ν)) (k : κ) (v : ν) :
    ∀ x ∈ alSet m k v, x = (k, v) ∨ x ∈ m := by
  induction m with
  | nil => simp [alSet]
  | cons e r ih =>
    intro x hx
    by_cases h : e.1 = k
    · simp only [alSet, if_pos h, List.mem_cons] at hx
      rcases hx with hx | hx
      · exact Or.inl hx
      · exact Or.inr (List.mem_cons_of_mem _ hx)
    · simp only [alSet, if_neg h, List.mem_cons] at hx
      rcases hx with hx | hx
      · exact Or.inr (hx ▸ List.mem_cons_self _ _)
      · rcases ih x hx with h1 | h1
        · exact Or.inl h1
        · exact Or.inr (List.mem_cons_of_mem _ h1)

theorem keys_alSet {κ ν : Type} [DecidableEq κ] (m : List (κ × ν)) (k : κ) (v : ν) (g : κ)
    (hg : g ∈ m.map Prod.fst) : g ∈ (alSet m k v).map Prod.fst := by
  induction m with
  | nil => simp at hg
  | cons e r ih =>
    by_cases h : e.1 = k
    · simp only [alSet, if_pos h]
      simp only [List.map_cons, List.mem_cons] at hg ⊢
      rcases hg with hg | hg
      · exact Or.inl (hg.trans h)
      · exact Or.inr hg
    · simp only [alSet, if_neg h]
      simp only [List.map_cons, List.mem_cons] at hg ⊢
      rcases hg with hg | hg
      · exact Or.inl hg
      · exact Or.inr (ih hg)

theorem alGet_mem {κ ν : Type} [DecidableEq κ] (m : List (κ × ν)) (k : κ) (v : ν)
    (h : alGet m k = some v) : (k, v) ∈ m := by
  induction m with
  | nil => simp [alGet] at h
  | cons e r ih =>
    by_cases he : e.1 = k
    · simp only [alGet, if_pos he, Option.some.injEq] at h
      have : (k, v) = e := by
        obtain ⟨a, b⟩ := e
        simp only at he h
        rw [he, h]
      exact this ▸ List.mem_cons_self _ _
    · simp only [alGet, if_neg he] at h
      exact List.mem_cons_of_mem _ (ih h)

/-! ## C5 — size folding -/

/-- C5 (corrected, amended form): folding a size update accumulates the
signed diff into the sizes map for that (operator, worker) and changes no
other aggregator field — in particular the operator directory is NOT
upserted.  Feeding diffs +1024, −200, +50 at one key yields 874. -/
theorem c5_size_fold (a : Aggregator) (id : OpId) (w : WorkerId) (d : Int) :
    (updateSize a id w d).operators = a.operators
    ∧ (updateSize a id w d).elapsed = a.elapsed
    ∧ (updateSize a id w d).start = a.start
    ∧ alGet (updateSize a id w d).sizes (id, w) = some ((alGet a.sizes (id, w)).getD 0 + d)
    ∧ alGet (updateAgg Aggregator.new
        ⟨0, [⟨.Size 5 0, 0, 1024⟩, ⟨.Size 5 0, 0, -200⟩, ⟨.Size 5 0, 0, 50⟩]⟩).sizes (5, 0)
      = some 874 := by
  refine ⟨rfl, rfl, rfl, ?_, by decide⟩
  simp only [updateSize]
  rw [alGet_alUpd]
  cases alGet a.sizes (id, w) <;> simp

/-- C5 counterexample: folding a size update for operator 5 into a fresh
aggregator leaves the operator directory empty — no directory entry is
upserted for the operator, contrary to the claim. -/
theorem c5_cex :
    (updateAgg Aggregator.new ⟨0, [⟨.Size 5 0, 0, 7⟩]⟩).operators = []
    ∧ alGet (updateAgg Aggregator.new ⟨0, [⟨.Size 5 0, 0, 7⟩]⟩).sizes (5, 0) = some 7 := by
  exact ⟨rfl, by decide⟩

/-! ## C8 — monotone-counter filtering -/

/-- C8: an elapsed sample contributes only when its diff is representable as
a non-negative integer; a negative diff leaves the aggregator unchanged
(nothing is subtracted), a non-negative diff adds that many nanoseconds to
the (operator, worker) accumulator. -/
theorem c8_elapsed_filter (a : Aggregator) (id : OpId) (w : WorkerId) (d : Int) :
    (d < 0 → updateElapsed a id w d = a)
    ∧ (0 ≤ d →
        alGet (updateElapsed a id w d).elapsed (id, w)
          = some ((alGet a.elapsed (id, w)).getD 0 + d.toNat)
        ∧ (updateElapsed a id w d).operators = a.operators
        ∧ (updateElapsed a id w d).sizes = a.sizes
        ∧ (updateElapsed a id w d).start = a.start) := by
  constructor
  · intro h
    simp only [updateElapsed, if_neg (not_le.mpr h)]
  · intro h
    have hs : updateElapsed a id w d
        = { a with elapsed := alUpd a.elapsed (id, w) (fun x => x + d.toNat) d.toNat } := by
      simp only [updateElapsed, if_pos h]
    rw [hs]
    refine ⟨?_, rfl, rfl, rfl⟩
    rw [alGet_alUpd]
    cases alGet a.elapsed (id, w) <;> simp

/-- C8 witness: diffs +50, −50, +80 at one (operator, worker) accumulate to
exactly 130 ns — the negative diff is dropped, not subtracted. -/
theorem c8_witness :
    alGet (updateElapsed (updateElapsed (updateElapsed Aggregator.new 1 0 50) 1 0 (-50))
        1 0 80).elapsed (1, 0) = some 130
    ∧ alGet (updateAgg Aggregator.new
        ⟨0, [⟨.Elapsed 1 0, 0, 50⟩, ⟨.Elapsed 1 0, 0, -50⟩, ⟨.Elapsed 1 0, 0, 80⟩]⟩).elapsed
        (1, 0) = some 130 := by
  constructor
  · have h2 := (c8_elapsed_filter
      (updateElapsed (updateElapsed Aggregator.new 1 0 50) 1 0 (-50)) 1 0 80).2 (by decide)
    rw [h2.1]
    decide
  · decide

/-! ## C6 — null-worker size rows -/

/-- C6 counterexample: a size row whose worker id column is NULL does not
produce any size datum — decoding the NULL fails, so the row is a fatal
parse failure rather than a recorded worker-less operator. -/
theorem c6_cex : sizeParse (some 5) none = none := by
  rfl

/-- C6 (corrected, amended form): the size datum always carries a worker id;
a NULL worker column makes the parse fail (fatal for the run), while
non-NULL, non-negative columns parse to a size datum with that worker. -/
theorem c6_null_worker :
    (∀ o : Option Int, sizeParse o none = none)
    ∧ (∀ o w : Int, 0 ≤ o → 0 ≤ w →
        sizeParse (some o) (some w) = some (.Size o.toNat w.toNat)) := by
  constructor
  · intro o
    cases o <;> rfl
  · intro o w ho hw
    simp [sizeParse, ho, hw]

/-- C6 witness: a non-null worker row parses to a size datum carrying it. -/
theorem c6_witness : sizeParse (some 5) (some 3) = some (.Size 5 3) := by
  exact (c6_null_worker.2 5 3 (by decide) (by decide)).trans (by decide)

/-! ## C7 — session-horizon establishment -/

/-- C7: while the cutoff is unset, a first data row is fatal; a first
progress row at time t sets the cutoff per the mode — Snapshot gives t,
Continual(Some d) gives t + d, Continual(None) gives Duration::MAX, which is
effectively +∞: for any representable row time, a later progress row never
finishes the stream and a later data row is never dropped as past the
window. -/
theorem c7_session_horizon (st : SubState) (r : Row) (hst : st.upTo = none) :
    (∀ mode : Mode, r.progress = false → absorbRow mode st r = none)
    ∧ (r.progress = true →
        absorbRow .snapshot st r = some ({ st with upTo := some r.time }, none)
        ∧ (∀ d : Nat, r.time + d ≤ durMax →
            absorbRow (.continual (some d)) st r
              = some ({ st with upTo := some (r.time + d) }, none))
        ∧ absorbRow (.continual none) st r = some ({ st with upTo := some durMax }, none))
    ∧ (∀ (m : Mode) (st2 : SubState) (r2 : Row), st2.upTo = some durMax →
        r2.time ≤ durMax →
        (r2.progress = true →
          absorbRow m st2 r2 = some ({ st2 with stash := [] }, some ⟨r2.time, st2.stash⟩))
        ∧ (r2.progress = false → ∀ u : Update, r2.upd = some u →
          absorbRow m st2 r2 = some ({ st2 with stash := st2.stash ++ [u] }, none))) := by
  refine ⟨?_, ?_, ?_⟩
  · intro mode hp
    simp [absorbRow, hst, hp]
  · intro hp
    refine ⟨by simp [absorbRow, hst, hp], ?_, by simp [absorbRow, hst, hp]⟩
    intro d hd
    simp [absorbRow, hst, hp, hd]
  · intro m st2 r2 h2 hle
    constructor
    · intro hp
      have hnl : ¬ durMax < r2.time := not_lt.mpr hle
      simp [absorbRow, h2, hp, hnl]
    · intro hp u hu
      simp [absorbRow, h2, hp, hu, hle]

/-- C7 witness: with origin 42, Snapshot yields cutoff 42, Continual(7)
yields 49, Continual(None) yields Duration::MAX; a first data row is fatal;
in the unbounded mode a later progress row at time 100 keeps the stream
open. -/
theorem c7_witness :
    absorbRow .snapshot SubState.start ⟨true, 42, none⟩
      = some (⟨some 42, [], true⟩, none)
    ∧ absorbRow (.continual (some 7)) SubState.start ⟨true, 42, none⟩
      = some (⟨some 49, [], true⟩, none)
    ∧ absorbRow (.continual none) SubState.start ⟨true, 42, none⟩
      = some (⟨some durMax, [], true⟩, none)
    ∧ absorbRow .snapshot SubState.start ⟨false, 42, none⟩ = none
    ∧ absorbRow .snapshot ⟨some durMax, [], true⟩ ⟨true, 100, none⟩
      = some (⟨some durMax, [], true⟩, some ⟨100, []⟩) := by
  have h := c7_session_horizon SubState.start ⟨true, 42, none⟩ rfl
  have h1 := (h.2.1 rfl).1
  have h2 := (h.2.1 rfl).2.1 7 (by decide)
  have h3 := (h.2.1 rfl).2.2
  have h4 := (c7_session_horizon SubState.start ⟨false, 42, none⟩ rfl).1 .snapshot rfl
  have h5 := ((c7_session_horizon SubState.start ⟨true, 42, none⟩ rfl).2.2 .snapshot
      ⟨some durMax, [], true⟩ ⟨true, 100, none⟩ rfl (by decide)).1 rfl
  exact ⟨h1, h2.trans (by decide), h3, h4, h5⟩

/-! ## Exclusive-time conversion lemmas -/

theorem conv_get (raw : OpId × WorkerId → Int) (pk : OpId × WorkerId → Option (OpId × WorkerId))
    (ks : List (OpId × WorkerId)) (m : List ((OpId × WorkerId) × Int)) (q : OpId × WorkerId) :
    alGet (ks.foldl (convStep raw pk) m) q
      = (alGet m q).map (fun v =>
          (ks.filter (fun c => pk c = some q)).foldl (fun w c => satSub w (raw c)) v) := by
  induction ks generalizing m with
  | nil => simp
  | cons c ks ih =>
    rw [List.foldl_cons, ih, List.filter_cons]
    cases hpk : pk c with
    | none =>
      simp [convStep, hpk]
    | some p =>
      by_cases hq : p = q
      · have hc2 : pk c = some q := by rw [hpk, hq]
        simp only [convStep, hc2]
        rw [alGet_alModify_self]
        cases hm : alGet m q <;> simp [hm, hq]
      · have hne : ¬ ((some p : Option (OpId × WorkerId)) = some q) := by
          simpa using hq
        simp only [convStep, hpk]
        rw [alGet_alModify_ne _ _ _ _ (Ne.symm hq)]
        simp [hpk, hne]

theorem foldl_satSub_eq (raw : OpId × WorkerId → Int) (cs : List (OpId × WorkerId)) :
    ∀ v : Int, (∀ c ∈ cs, 0 ≤ raw c) → v ≤ i64Max →
    i64Min ≤ v - (cs.map raw).sum →
    cs.foldl (fun w c => satSub w (raw c)) v = v - (cs.map raw).sum := by
  induction cs with
  | nil => intro v _ _ _; simp
  | cons c cs ih =>
    intro v hnn hv hlo
    have hc : 0 ≤ raw c := hnn c (List.mem_cons_self _ _)
    have hrest : 0 ≤ (cs.map raw).sum := by
      apply List.sum_nonneg
      intro x hx
      obtain ⟨y, hy, rfl⟩ := List.mem_map.mp hx
      exact hnn y (List.mem_cons_of_mem _ hy)
    have hsum : ((c :: cs).map raw).sum = raw c + (cs.map raw).sum := by simp
    rw [hsum] at hlo
    have h1 : satSub v (raw c) = v - raw c := by
      unfold satSub
      rw [min_eq_left (by linarith), max_eq_left (by linarith)]
    rw [List.foldl_cons, h1,
      ih (v - raw c) (fun x hx => hnn x (List.mem_cons_of_mem _ hx)) (by linarith)
        (by linarith), hsum]
    ring

theorem rawNs_nonneg (el : List ((OpId × WorkerId) × Nat)) (c : OpId × WorkerId) :
    0 ≤ rawNs el c :=
  Int.natCast_nonneg _

theorem convertElapsed_spec (ops : List (OpId × OpInfo)) (el : List ((OpId × WorkerId) × Nat))
    (q : OpId × WorkerId) :
    alGet (convertElapsed ops el) q
      = (alGet el q).map (fun v =>
          ((el.map Prod.fst).reverse.filter
              (fun c => parentKey ops (opsByAddress ops) c = some q)).foldl
            (fun w c => satSub w (rawNs el c)) ((v : Nat) : Int)) := by
  unfold convertElapsed
  rw [conv_get, alGet_mapVal (fun n : Nat => (n : Int)) el q]
  cases alGet el q <;> simp

theorem childSum_rev (ops : List (OpId × OpInfo)) (el : List ((OpId × WorkerId) × Nat))
    (q : OpId × WorkerId) :
    (((el.map Prod.fst).reverse.filter
        (fun c => parentKey ops (opsByAddress ops) c = some q)).map (rawNs el)).sum
      = childSum ops el q := by
  unfold childSum
  exact List.Perm.sum_eq (((List.reverse_perm _).filter _).map _)

theorem convertElapsed_formula (ops : List (OpId × OpInfo))
    (el : List ((OpId × WorkerId) × Nat)) (q : OpId × WorkerId) (v : Nat)
    (hv : alGet el q = some v) (hmax : (v : Int) ≤ i64Max)
    (hlo : i64Min ≤ (v : Int) - childSum ops el q) :
    alGet (convertElapsed ops el) q = some ((v : Int) - childSum ops el q) := by
  rw [convertElapsed_spec, hv]
  simp only [Option.map_some']
  rw [foldl_satSub_eq _ _ _ (fun c _ => rawNs_nonneg el c) hmax
      (by rw [childSum_rev ops el q]; exact hlo), childSum_rev ops el q]

theorem conv_fold_skip (raw : OpId × WorkerId → Int)
    (pk : OpId × WorkerId → Option (OpId × WorkerId)) (ks : List (OpId × WorkerId))
    (m : List ((OpId × WorkerId) × Int)) (h : ∀ k ∈ ks, pk k = none) :
    ks.foldl (convStep raw pk) m = m := by
  induction ks generalizing m with
  | nil => rfl
  | cons c ks ih =>
    rw [List.foldl_cons]
    have hstep : convStep raw pk m c = m := by
      simp [convStep, h c (List.mem_cons_self _ _)]
    rw [hstep]
    exact ih m (fun k hk => h k (List.mem_cons_of_mem _ hk))

/-! ## C3 — exclusive-time conversion -/

/-- C3 (corrected, amended form): for every (id, worker) entry of the raw
snapshot the derived exclusive value equals raw[(id,worker)] minus the sum
of raw[(child,worker)] over the entries whose parent resolves (via the
directory's address relation) to this entry — as an exact i64 difference:
the subtraction saturates only at the i64 bounds, never at zero, so the
result can be negative.  An entry with no children keeps its cumulative
value exactly, and each subtraction reads the untouched raw snapshot. -/
theorem c3_exclusive (ops : List (OpId × OpInfo)) (el : List ((OpId × WorkerId) × Nat))
    (q : OpId × WorkerId) (v : Nat) (hv : alGet el q = some v)
    (hmax : (v : Int) ≤ i64Max) (hlo : i64Min ≤ (v : Int) - childSum ops el q) :
    alGet (convertElapsed ops el) q = some ((v : Int) - childSum ops el q)
    ∧ (childSum ops el q = 0 → alGet (convertElapsed ops el) q = some (v : Int)) := by
  refine ⟨convertElapsed_formula ops el q v hv hmax hlo, fun h0 => ?_⟩
  rw [convertElapsed_formula ops el q v hv hmax hlo, h0, sub_zero]

/-- C3 counterexample: with parent cumulative 10 ns and one child cumulative
30 ns the code computes parent exclusive −20 ns, not the claimed
max(0, 10 − 30) = 0 — the subtraction does not saturate at zero. -/
theorem c3_cex :
    alGet (convertElapsed opsTwo elTen) (1, 0) = some (-20)
    ∧ alGet (convertElapsed opsTwo elTen) (1, 0) ≠ some (max 0 (10 - 30 : Int)) := by
  exact ⟨by decide, by decide⟩

/-- C3 witness: parent cumulative 100 ns with one 30 ns child yields parent
exclusive 70 ns; the leaf child keeps its 30 ns. -/
theorem c3_witness :
    alGet (convertElapsed opsTwo elHundred) (1, 0) = some 70
    ∧ alGet (convertElapsed opsTwo elHundred) (2, 0) = some 30 := by
  constructor
  · have h := (c3_exclusive opsTwo elHundred (1, 0) 100 (by decide) (by decide) (by decide)).1
    rw [h]
    decide
  · have h := (c3_exclusive opsTwo elHundred (2, 0) 30 (by decide) (by decide) (by decide)).1
    rw [h]
    decide

/-! ## C4 — missing directory entries during derivation -/

/-- C4 (corrected, amended form): an elapsed entry whose operator id is
missing from the directory, or whose parent address has no directory entry,
is silently skipped during exclusive-time derivation — it contributes no
subtraction and raises no error; when every entry is skipped the conversion
succeeds and returns the raw values unchanged, so the run still produces a
profile. -/
theorem c4_skip (ops : List (OpId × OpInfo)) (el : List ((OpId × WorkerId) × Nat))
    (h : ∀ c ∈ el.map Prod.fst, parentKey ops (opsByAddress ops) c = none)
    (hr : ∀ e ∈ el, ((e.2 : Nat) : Int) ≤ i64Max) :
    convertElapsedChecked ops el = some (el.map (fun e => (e.1, (e.2 : Int)))) := by
  unfold convertElapsedChecked
  rw [if_pos]
  · unfold convertElapsed
    rw [conv_fold_skip]
    intro k hk
    exact h k (List.mem_reverse.mp hk)
  · rw [List.all_eq_true]
    intro e he
    exact decide_eq_true (hr e he)

/-- C4 counterexample: an elapsed entry for operator 7 with an empty
directory is skipped, the conversion succeeds with the value unchanged, and
a profile is still produced — the run does not fail with a fatal error as
the claim asserts. -/
theorem c4_cex :
    convertElapsedChecked [] [((7, 0), 100)] = some [((7, 0), 100)]
    ∧ convertElapsedChecked [] [((7, 0), 100)] ≠ none
    ∧ (buildPprof ⟨none, [], [((7, 0), 100)], []⟩).isSome = true := by
  refine ⟨by decide, by decide, by decide⟩

/-- C4 witness: the skip theorem applied at the concrete input of the
counterexample. -/
theorem c4_witness :
    convertElapsedChecked [] [((7, 0), 100)] = some [((7, 0), (100 : Int))] := by
  exact (c4_skip [] [((7, 0), 100)] (by decide) (by decide)).trans (by decide)

/-! ## C10 — building a profile is a pure observation -/

/-- C10: building the profile observes the aggregator without mutating it —
in this embedding the builder is a function of the aggregator value (the
Rust method takes &self), and the one internally mutated object, the copied
elapsed_ns map, never feeds back into the subtrahends: every subtraction
reads the untouched elapsed snapshot, so folding the conversion steps over
any permutation of the entries (in particular the code's reverse iteration
order) yields the same exclusive values, and repeated builds agree. -/
theorem c10_pure_observation (ops : List (OpId × OpInfo))
    (el : List ((OpId × WorkerId) × Nat)) (ks : List (OpId × WorkerId))
    (hperm : ks.Perm (el.map Prod.fst)) (q : OpId × WorkerId) (v : Nat)
    (hv : alGet el q = some v) (hmax : (v : Int) ≤ i64Max)
    (hlo : i64Min ≤ (v : Int) - childSum ops el q) :
    alGet (ks.foldl (convStep (rawNs el) (parentKey ops (opsByAddress ops)))
        (el.map (fun e => (e.1, (e.2 : Int))))) q
      = alGet (convertElapsed ops el) q := by
  have hsum : ((ks.filter
      (fun c => parentKey ops (opsByAddress ops) c = some q)).map (rawNs el)).sum
      = childSum ops el q := by
    unfold childSum
    exact List.Perm.sum_eq ((hperm.filter _).map _)
  rw [conv_get, alGet_mapVal (fun n : Nat => (n : Int)) el q, hv]
  simp only [Option.map_some']
  rw [foldl_satSub_eq _ _ _ (fun c _ => rawNs_nonneg el c) hmax (by rw [hsum]; exact hlo),
    hsum, convertElapsed_formula ops el q v hv hmax hlo]

/-- C10 witness: processing the 100/30 example in forward order gives the
same exclusive value (70 ns) as the code's reverse order. -/
theorem c10_witness :
    alGet ((elHundred.map Prod.fst).foldl
        (convStep (rawNs elHundred) (parentKey opsTwo (opsByAddress opsTwo)))
        (elHundred.map (fun e => (e.1, (e.2 : Int))))) (1, 0)
      = alGet (convertElapsed opsTwo elHundred) (1, 0)
    ∧ alGet (convertElapsed opsTwo elHundred) (1, 0) = some 70 := by
  refine ⟨c10_pure_observation opsTwo elHundred (elHundred.map Prod.fst) (List.Perm.refl _)
      (1, 0) 100 (by decide) (by decide) (by decide), by decide⟩

/-! ## Profile-builder lemmas -/

theorem alGet_alSet_self {κ ν : Type} [DecidableEq κ] (m : List (κ × ν)) (k : κ) (v : ν) :
    alGet (alSet m k v) k = some v := by
  induction m with
  | nil => simp [alSet, alGet]
  | cons e r ih =>
    by_cases h : e.1 = k <;> simp [alSet, alGet, h, ih]

theorem buildOperatorStack_frame (pb : PB) (id : OpId) (r : PB × List Nat)
    (h : buildOperatorStack pb id = some r) :
    r.1.samples = pb.samples ∧ r.1.sampleTypes = pb.sampleTypes := by
  unfold buildOperatorStack at h
  split at h
  · simp only [Option.map_eq_some'] at h
    obtain ⟨st, _, hr⟩ := h
    rw [← hr]
    exact ⟨rfl, rfl⟩
  · split at h
    · simp only [Option.some.injEq] at h
      rw [← h]
      exact ⟨rfl, rfl⟩
    · simp only [Option.some.injEq] at h
      rw [← h]
      exact ⟨rfl, rfl⟩

theorem setSampleValue_aligned (len : Nat) (k : OpId × WorkerId) (v : Int) (pb1 pb2 : PB)
    (h : setSampleValue len k v pb1 = some pb2)
    (hinv : ∀ e ∈ pb1.samples, e.2.value.length = len) :
    pb2.sampleTypes = pb1.sampleTypes ∧ ∀ e ∈ pb2.samples, e.2.value.length = len := by
  unfold setSampleValue at h
  split at h
  · cases h
  · next smp hg =>
    split at h
    · cases h
    · next smp2 hs =>
      simp only [Option.some.injEq] at h
      subst h
      refine ⟨rfl, ?_⟩
      intro e he
      rcases mem_alSet_imp _ _ _ e he with he2 | he2
      · have hlen : smp2.value.length = smp.value.length := by
          unfold setValueAt at hs
          by_cases hc : len - 1 < smp.value.length
          · rw [if_pos hc] at hs
            simp only [Option.some.injEq] at hs
            rw [← hs]
            simp
          · rw [if_neg hc] at hs; cases hs
        have hin : smp.value.length = len := hinv (k, smp) (alGet_mem _ _ _ hg)
        rw [he2]
        exact hlen.trans hin
      · exact hinv e he2

theorem addOneSample_aligned (len : Nat) (pb : PB) (k : OpId × WorkerId) (v : Int) (pb2 : PB)
    (h : addOneSample len pb k v = some pb2)
    (hinv : ∀ e ∈ pb.samples, e.2.value.length = len) :
    pb2.sampleTypes = pb.sampleTypes ∧ ∀ e ∈ pb2.samples, e.2.value.length = len := by
  unfold addOneSample at h
  split at h
  · exact setSampleValue_aligned len k v pb pb2 h hinv
  · split at h
    · cases h
    · next r hb =>
      obtain ⟨hsm, hst⟩ := buildOperatorStack_frame pb k.1 r hb
      have hinvC : ∀ e ∈ (alSet r.1.samples k
          ⟨r.2, List.replicate len 0,
            [((stInsert r.1.stringTable workerName).2,
              (stInsert (stInsert r.1.stringTable workerName).1 (toString k.2)).2)]⟩),
          e.2.value.length = len := by
        intro e he
        rcases mem_alSet_imp _ _ _ e he with he2 | he2
        · rw [he2]
          simp
        · rw [hsm] at he2
          exact hinv e he2
      have hfin := setSampleValue_aligned len k v _ pb2 h hinvC
      exact ⟨hfin.1.trans hst, hfin.2⟩

theorem addSamplesGo_aligned (len : Nat) (col : List ((OpId × WorkerId) × Int)) :
    ∀ pb pb2 : PB, addSamplesGo len pb col = some pb2 →
    (∀ e ∈ pb.samples, e.2.value.length = len) →
    pb2.sampleTypes = pb.sampleTypes ∧ ∀ e ∈ pb2.samples, e.2.value.length = len := by
  induction col with
  | nil =>
    intro pb pb2 h hinv
    simp only [addSamplesGo, Option.some.injEq] at h
    subst h
    exact ⟨rfl, hinv⟩
  | cons e r ih =>
    intro pb pb2 h hinv
    rw [addSamplesGo] at h
    split at h
    · cases h
    · next pbm hone =>
      have hm := addOneSample_aligned len pb e.1 e.2 pbm hone hinv
      have hrest := ih pbm pb2 h hm.2
      exact ⟨hrest.1.trans hm.1, hrest.2⟩

/-! ## C9 — sample value-vector alignment -/

/-- C9: after every add_samples invocation, every sample's value vector has
length equal to the number of registered sample types — existing samples get
a zero appended for the new column, newly created samples get a vector of
the new length with the value in the last slot — and the sample-type count
grows by exactly one. -/
theorem c9_alignment (pb : PB) (tyS unS : String) (col : List ((OpId × WorkerId) × Int))
    (pb2 : PB) (h : addSamples pb tyS unS col = some pb2)
    (hinv : ∀ e ∈ pb.samples, e.2.value.length = pb.sampleTypes.length) :
    (∀ e ∈ pb2.samples, e.2.value.length = pb2.sampleTypes.length)
    ∧ pb2.sampleTypes.length = pb.sampleTypes.length + 1 := by
  unfold addSamples at h
  have hinv1 : ∀ e ∈ pb.samples.map (fun e => (e.1, { e.2 with value := e.2.value ++ [0] })),
      e.2.value.length
        = (pb.sampleTypes
            ++ [(⟨(stInsert pb.stringTable tyS).2,
                  (stInsert (stInsert pb.stringTable tyS).1 unS).2⟩ : ValueType)]).length := by
    intro e he
    obtain ⟨e0, he0, rfl⟩ := List.mem_map.mp he
    simp [hinv e0 he0]
  have hgo := addSamplesGo_aligned _ _ _ pb2 h hinv1
  constructor
  · intro e he
    rw [hgo.1]
    exact hgo.2 e he
  · rw [hgo.1]
    simp

/-- C9 witness: after adding a "time" column with data for operators 1 and 2
and then a "size" column with data for operator 1 only, all value vectors
have length 2; operator 2's vector is [200, 0] and operator 1's is
[100, 500]. -/
theorem c9_witness :
    addSamples pbStep1 sizeName bytesName [((1, 0), 500)] = some pbStep2
    ∧ (∀ e ∈ pbStep2.samples, e.2.value.length = pbStep2.sampleTypes.length)
    ∧ (alGet pbStep2.samples (2, 0)).map (fun s => s.value) = some [200, 0]
    ∧ (alGet pbStep2.samples (1, 0)).map (fun s => s.value) = some [100, 500] := by
  have happ : addSamples pbStep1 sizeName bytesName [((1, 0), 500)] = some pbStep2 := by
    decide
  exact ⟨happ, (c9_alignment pbStep1 sizeName bytesName [((1, 0), 500)] pbStep2 happ
    (by decide)).1, by decide, by decide⟩

/-! ## C2 — collector shutdown -/

theorem runC_closes (tr : List Ev) :
    ∀ st : CState, tr.all isClose = true →
    (runC st tr).2 = [] ∧ (runC st tr).1.stash = st.stash := by
  induction tr with
  | nil => intro st _; exact ⟨rfl, rfl⟩
  | cons e tr ih =>
    intro st hall
    rw [List.all_cons, Bool.and_eq_true] at hall
    cases e with
    | batch f b => simp [isClose] at hall
    | close f =>
      have hrec := ih ⟨removeProgress st.progress f, st.stash⟩ hall.2
      have hstep : runC st (Ev.close f :: tr)
          = ((runC ⟨removeProgress st.progress f, st.stash⟩ tr).1,
             [] ++ (runC ⟨removeProgress st.progress f, st.stash⟩ tr).2) := rfl
      rw [hstep]
      simp only [List.nil_append]
      exact ⟨hrec.1, hrec.2⟩

/-- C2 (corrected, amended form): when a feed closes, its progress entry is
removed, the stash is untouched and nothing is released; from any point
where only close events remain — in particular once all feeds are closed —
nothing further is ever released and the stashed updates stay in the stash:
the collector output ends with those updates dropped, not released. -/
theorem c2_shutdown (st : CState) (f : Nat) (tr : List Ev) (hcl : tr.all isClose = true) :
    step st (Ev.close f) = (⟨removeProgress st.progress f, st.stash⟩, [])
    ∧ (runC st tr).2 = [] ∧ (runC st tr).1.stash = st.stash := by
  exact ⟨rfl, (runC_closes tr st hcl).1, (runC_closes tr st hcl).2⟩

/-- C2 counterexample: feed 0 stashes an update at time 5 under watermark 10
while feed 1 is still at its initial watermark 0, then both feeds close: the
run ends with every feed closed, the update still in the stash, and nothing
released — the stashed update is silently dropped, contrary to the claim
that the stash is fully released once all feeds are closed. -/
theorem c2_cex :
    (runC (initCState [0, 1]) trShutdown).1.progress = []
    ∧ (runC (initCState [0, 1]) trShutdown).1.stash = [(5, [updFive])]
    ∧ (runC (initCState [0, 1]) trShutdown).2 = [] := by
  refine ⟨by decide, by decide, by decide⟩

/-- C2 witness: the shutdown theorem at a state holding one stashed update,
with a single close event remaining. -/
theorem c2_witness :
    step (⟨[(1, 0)], [(5, [updFive])]⟩ : CState) (Ev.close 1) = (⟨[], [(5, [updFive])]⟩, [])
    ∧ (runC (⟨[(1, 0)], [(5, [updFive])]⟩ : CState) [Ev.close 1]).2 = []
    ∧ (runC (⟨[(1, 0)], [(5, [updFive])]⟩ : CState) [Ev.close 1]).1.stash
      = [(5, [updFive])] := by
  have h := c2_shutdown ⟨[(1, 0)], [(5, [updFive])]⟩ 1 [Ev.close 1] (by decide)
  exact ⟨h.1.trans (by decide), h.2.1, h.2.2⟩

/-! ## Collector lemmas -/

theorem runC_cons_out (st : CState) (e : Ev) (tr : List Ev) :
    (runC st (e :: tr)).2 = (step st e).2 ++ (runC (step st e).1 tr).2 := rfl

theorem runC_cons_state (st : CState) (e : Ev) (tr : List Ev) :
    (runC st (e :: tr)).1 = (runC (step st e).1 tr).1 := rfl

theorem step_batch (st : CState) (f : Nat) (b : Batch) :
    step st (Ev.batch f b) = absorbBatch st f b := rfl

theorem step_close (st : CState) (f : Nat) :
    step st (Ev.close f) = (⟨removeProgress st.progress f, st.stash⟩, []) := rfl

theorem absorbBatch_progress (st : CState) (f : Nat) (b : Batch) :
    (absorbBatch st f b).1.progress = alSet st.progress f b.time := rfl

theorem absorbBatch_stash (st : CState) (f : Nat) (b : Batch) :
    (absorbBatch st f b).1.stash
      = (b.updates.foldl stashInsert st.stash).dropWhile
          (fun e => e.1 < (frontierOpt (alSet st.progress f b.time)).getD 0) := rfl

theorem absorbBatch_out (st : CState) (f : Nat) (b : Batch) :
    (absorbBatch st f b).2
      = ((b.updates.foldl stashInsert st.stash).takeWhile
          (fun e => e.1 < (frontierOpt (alSet st.progress f b.time)).getD 0)).map
          (fun e => ⟨e.1, e.2⟩) := rfl

theorem mem_stashInsert_key (s : List (Nat × List Update)) (u : Update) :
    ∀ x ∈ stashInsert s u, x.1 = u.time ∨ x.1 ∈ s.map Prod.fst := by
  induction s with
  | nil =>
    intro x hx
    simp only [stashInsert, List.mem_singleton] at hx
    exact Or.inl (by rw [hx])
  | cons e r ih =>
    obtain ⟨k, us⟩ := e
    intro x hx
    by_cases h1 : u.time < k
    · simp only [stashInsert, if_pos h1, List.mem_cons] at hx
      rcases hx with hx | hx | hx
      · exact Or.inl (by rw [hx])
      · exact Or.inr (by rw [hx]; exact List.mem_map_of_mem Prod.fst (List.mem_cons_self _ _))
      · exact Or.inr (List.mem_cons_of_mem _ (List.mem_map_of_mem Prod.fst hx))
    · by_cases h2 : u.time = k
      · simp only [stashInsert, if_neg h1, if_pos h2, List.mem_cons] at hx
        rcases hx with hx | hx
        · exact Or.inl (by rw [hx, ← h2])
        · exact Or.inr (List.mem_cons_of_mem _ (List.mem_map_of_mem Prod.fst hx))
      · simp only [stashInsert, if_neg h1, if_neg h2, List.mem_cons] at hx
        rcases hx with hx | hx
        · exact Or.inr (by rw [hx]; exact List.mem_map_of_mem Prod.fst (List.mem_cons_self _ _))
        · rcases ih x hx with h | h
          · exact Or.inl h
          · exact Or.inr (List.mem_cons_of_mem _ h)

theorem stashInsert_sorted (s : List (Nat × List Update)) (u : Update)
    (hs : stashSorted s) : stashSorted (stashInsert s u) := by
  induction s with
  | nil =>
    simp [stashInsert, stashSorted]
  | cons e r ih =>
    obtain ⟨k, us⟩ := e
    obtain ⟨hhead, htail⟩ := List.pairwise_cons.mp hs
    by_cases h1 : u.time < k
    · simp only [stashInsert, if_pos h1]
      refine List.pairwise_cons.mpr ⟨?_, hs⟩
      intro x hx
      rcases List.mem_cons.mp hx with hx | hx
      · rw [hx]; exact h1
      · exact lt_trans h1 (hhead x hx)
    · by_cases h2 : u.time = k
      · simp only [stashInsert, if_neg h1, if_pos h2]
        exact List.pairwise_cons.mpr ⟨fun x hx => hhead x hx, htail⟩
      · simp only [stashInsert, if_neg h1, if_neg h2]
        refine List.pairwise_cons.mpr ⟨?_, ih htail⟩
        intro x hx
        rcases mem_stashInsert_key r u x hx with h | h
        · rw [h]; omega
        · obtain ⟨y, hy, hxy⟩ := List.mem_map.mp h
          rw [← hxy]
          exact hhead y hy

theorem stashInsert_times (s : List (Nat × List Update)) (u : Update)
    (hs : stashTimes s) : stashTimes (stashInsert s u) := by
  induction s with
  | nil =>
    intro x hx v hv
    simp only [stashInsert, List.mem_singleton] at hx
    rw [hx] at hv ⊢
    simp only [List.mem_singleton] at hv
    rw [hv]
  | cons e r ih =>
    obtain ⟨k, us⟩ := e
    have hhead : ∀ v ∈ us, v.time = k := fun v hv => hs (k, us) (List.mem_cons_self _ _) v hv
    have htail : stashTimes r := fun x hx v hv => hs x (List.mem_cons_of_mem _ hx) v hv
    intro x hx v hv
    by_cases h1 : u.time < k
    · simp only [stashInsert, if_pos h1, List.mem_cons] at hx
      rcases hx with hx | hx | hx
      · rw [hx] at hv ⊢
        simp only [List.mem_singleton] at hv
        rw [hv]
      · exact hs x (by rw [hx]; exact List.mem_cons_self _ _) v hv
      · exact hs x (List.mem_cons_of_mem _ hx) v hv
    · by_cases h2 : u.time = k
      · simp only [stashInsert, if_neg h1, if_pos h2, List.mem_cons] at hx
        rcases hx with hx | hx
        · rw [hx] at hv ⊢
          simp only [List.mem_append, List.mem_singleton] at hv
          rcases hv with hv | hv
          · exact hhead v hv
          · rw [hv, h2]
        · exact htail x hx v hv
      · simp only [stashInsert, if_neg h1, if_neg h2, List.mem_cons] at hx
        rcases hx with hx | hx
        · exact hs x (by rw [hx]; exact List.mem_cons_self _ _) v hv
        · exact ih htail x hx v hv

theorem stashFold_sorted (us : List Update) :
    ∀ s, stashSorted s → stashSorted (us.foldl stashInsert s) := by
  induction us with
  | nil => intro s hs; exact hs
  | cons u us ih => intro s hs; exact ih _ (stashInsert_sorted s u hs)

theorem stashFold_times (us : List Update) :
    ∀ s, stashTimes s → stashTimes (us.foldl stashInsert s) := by
  induction us with
  | nil => intro s hs; exact hs
  | cons u us ih => intro s hs; exact ih _ (stashInsert_times s u hs)

theorem mem_stashFold_key (us : List Update) :
    ∀ s, ∀ x ∈ us.foldl stashInsert s,
      x.1 ∈ s.map Prod.fst ∨ ∃ u ∈ us, x.1 = u.time := by
  induction us with
  | nil =>
    intro s x hx
    exact Or.inl (List.mem_map_of_mem _ hx)
  | cons u us ih =>
    intro s x hx
    rcases ih (stashInsert s u) x hx with h | h
    · obtain ⟨y, hy, hxy⟩ := List.mem_map.mp h
      rcases mem_stashInsert_key s u y hy with h2 | h2
      · exact Or.inr ⟨u, List.mem_cons_self _ _, by rw [← hxy, h2]⟩
      · exact Or.inl (by rw [← hxy]; exact h2)
    · obtain ⟨u', hu', h'⟩ := h
      exact Or.inr ⟨u', List.mem_cons_of_mem _ hu', h'⟩

theorem mem_takeWhile_sub {α : Type} (p : α → Bool) (l : List α) :
    ∀ x ∈ l.takeWhile p, x ∈ l ∧ p x = true := by
  induction l with
  | nil => simp
  | cons a l ih =>
    intro x hx
    by_cases h : p a = true
    · rw [List.takeWhile_cons, if_pos h] at hx
      rcases List.mem_cons.mp hx with hx | hx
      · exact ⟨by rw [hx]; exact List.mem_cons_self _ _, by rw [hx]; exact h⟩
      · obtain ⟨h1, h2⟩ := ih x hx
        exact ⟨List.mem_cons_of_mem _ h1, h2⟩
    · rw [List.takeWhile_cons, if_neg h] at hx
      simp at hx

theorem mem_dropWhile_sub {α : Type} (p : α → Bool) (l : List α) :
    ∀ x ∈ l.dropWhile p, x ∈ l := by
  induction l with
  | nil => simp
  | cons a l ih =>
    intro x hx
    by_cases h : p a = true
    · rw [List.dropWhile_cons, if_pos h] at hx
      exact List.mem_cons_of_mem _ (ih x hx)
    · rw [List.dropWhile_cons, if_neg h] at hx
      exact hx

theorem pairwise_takeWhile {α : Type} (R : α → α → Prop) (p : α → Bool) (l : List α)
    (h : List.Pairwise R l) : List.Pairwise R (l.takeWhile p) :=
  h.sublist (List.takeWhile_sublist p)

theorem pairwise_dropWhile {α : Type} (R : α → α → Prop) (p : α → Bool) (l : List α)
    (h : List.Pairwise R l) : List.Pairwise R (l.dropWhile p) :=
  h.sublist (List.dropWhile_sublist p)

theorem dropWhile_lt_ge (fr : Nat) (s : List (Nat × List Update)) (hs : stashSorted s) :
    ∀ x ∈ s.dropWhile (fun e => e.1 < fr), fr ≤ x.1 := by
  induction s with
  | nil => simp
  | cons e r ih =>
    obtain ⟨hhead, htail⟩ := List.pairwise_cons.mp hs
    intro x hx
    by_cases h : e.1 < fr
    · rw [List.dropWhile_cons, if_pos (by simpa using h)] at hx
      exact ih htail x hx
    · rw [List.dropWhile_cons, if_neg (by simpa using h)] at hx
      rcases List.mem_cons.mp hx with hx | hx
      · rw [hx]; omega
      · have := hhead x hx
        omega

theorem foldl_min_le_mem (ws : List Nat) :
    ∀ w : Nat, ws.foldl Nat.min w ≤ w ∧ ∀ x ∈ ws, ws.foldl Nat.min w ≤ x := by
  induction ws with
  | nil => intro w; exact ⟨le_refl w, by simp⟩
  | cons a ws ih =>
    intro w
    have h := ih (Nat.min w a)
    constructor
    · exact le_trans h.1 (Nat.min_le_left _ _)
    · intro x hx
      rcases List.mem_cons.mp hx with hx | hx
      · rw [hx]; exact le_trans h.1 (Nat.min_le_right _ _)
      · exact h.2 x hx

theorem frontier_le (p : List (Nat × Nat)) (x : Nat × Nat) (hx : x ∈ p) :
    (frontierOpt p).getD 0 ≤ x.2 := by
  cases p with
  | nil => simp at hx
  | cons e r =>
    have hshow : (frontierOpt (e :: r)).getD 0 = (r.map Prod.snd).foldl Nat.min e.2 := rfl
    rw [hshow]
    rcases List.mem_cons.mp hx with hx | hx
    · rw [hx]; exact (foldl_min_le_mem _ e.2).1
    · exact (foldl_min_le_mem _ e.2).2 x.2 (List.mem_map_of_mem Prod.snd hx)

theorem mem_removeProgress (p : List (Nat × Nat)) (f : Nat) (x : Nat × Nat) :
    x ∈ removeProgress p f ↔ x ∈ p ∧ x.1 ≠ f := by
  unfold removeProgress
  rw [List.mem_filter]
  simp

theorem keys_removeProgress (p : List (Nat × Nat)) (f g : Nat)
    (hg : g ∈ p.map Prod.fst) (hne : g ≠ f) :
    g ∈ (removeProgress p f).map Prod.fst := by
  obtain ⟨x, hx, rfl⟩ := List.mem_map.mp hg
  exact List.mem_map_of_mem _ ((mem_removeProgress p f x).mpr ⟨hx, hne⟩)

theorem discipline_head_batch (f : Nat) (b : Batch) (tr : List Ev)
    (h : feedDiscipline (Ev.batch f b :: tr) = true) :
    feedDiscipline tr = true
    ∧ ∀ b2 : Batch, Ev.batch f b2 ∈ tr → ∀ u ∈ b2.updates, b.time ≤ u.time := by
  rw [feedDiscipline, Bool.and_eq_true] at h
  refine ⟨h.2, ?_⟩
  intro b2 hmem u hu
  have hcl : (decide (f ≠ f) || b2.updates.all fun u => decide (b.time ≤ u.time)) = true :=
    List.all_eq_true.mp h.1 _ hmem
  rw [Bool.or_eq_true] at hcl
  rcases hcl with hcl | hcl
  · exact absurd (of_decide_eq_true hcl) (by simp)
  · exact of_decide_eq_true (List.all_eq_true.mp hcl u hu)

theorem discipline_head_close (f : Nat) (tr : List Ev)
    (h : feedDiscipline (Ev.close f :: tr) = true) :
    feedDiscipline tr = true ∧ ∀ e ∈ tr, evFeed e ≠ f := by
  rw [feedDiscipline, Bool.and_eq_true] at h
  refine ⟨h.2, ?_⟩
  intro e hmem
  exact of_decide_eq_true (List.all_eq_true.mp h.1 e hmem)

theorem runC_times (tr : List Ev) :
    ∀ st : CState, stashTimes st.stash → stashTimes (runC st tr).1.stash := by
  induction tr with
  | nil => intro st h; exact h
  | cons e tr ih =>
    intro st h
    rw [runC_cons_state]
    cases e with
    | close f => exact ih _ h
    | batch f b =>
      apply ih
      rw [step_batch, absorbBatch_stash]
      intro x hx u hu
      exact stashFold_times b.updates st.stash h x (mem_dropWhile_sub _ _ x hx) u hu

theorem runC_ordered (tr : List Ev) :
    ∀ st : CState, stashSorted st.stash → feedDiscipline tr = true →
    domOK st.progress tr → futBound st.progress tr →
    List.Pairwise (fun a b : Batch => a.time < b.time) (runC st tr).2
    ∧ ∀ lb : Nat, (∀ e ∈ st.stash, lb ≤ e.1) → batchLB lb tr →
        ∀ ob ∈ (runC st tr).2, lb ≤ ob.time := by
  induction tr with
  | nil =>
    intro st _ _ _ _
    constructor
    · exact List.Pairwise.nil
    · intro lb _ _ ob hob
      simp [runC] at hob
  | cons e tr ih =>
    intro st hsort hdisc hdom hfut
    cases e with
    | close f =>
      obtain ⟨hd2, hne⟩ := discipline_head_close f tr hdisc
      have hdom2 : domOK (removeProgress st.progress f) tr := by
        intro g b2 hmem
        exact keys_removeProgress _ _ _ (hdom g b2 (List.mem_cons_of_mem _ hmem))
          (hne (Ev.batch g b2) hmem)
      have hfut2 : futBound (removeProgress st.progress f) tr := by
        intro fw hfw b2 hmem u hu
        exact hfut fw ((mem_removeProgress _ _ fw).mp hfw).1 b2
          (List.mem_cons_of_mem _ hmem) u hu
      have hrec := ih ⟨removeProgress st.progress f, st.stash⟩ hsort hd2 hdom2 hfut2
      constructor
      · rw [runC_cons_out, step_close]
        simp only [List.nil_append]
        exact hrec.1
      · intro lb hlb hflb
        rw [runC_cons_out, step_close]
        simp only [List.nil_append]
        exact hrec.2 lb hlb (fun g b2 hm u hu => hflb g b2 (List.mem_cons_of_mem _ hm) u hu)
    | batch f b =>
      obtain ⟨hd2, hfb⟩ := discipline_head_batch f b tr hdisc
      have hsort1 : stashSorted (b.updates.foldl stashInsert st.stash) :=
        stashFold_sorted b.updates st.stash hsort
      have hsort2 : stashSorted ((b.updates.foldl stashInsert st.stash).dropWhile
          (fun e => e.1 < (frontierOpt (alSet st.progress f b.time)).getD 0)) :=
        pairwise_dropWhile _ _ _ hsort1
      have hdom2 : domOK (alSet st.progress f b.time) tr := by
        intro g b2 hmem
        exact keys_alSet st.progress f b.time g (hdom g b2 (List.mem_cons_of_mem _ hmem))
      have hfut2 : futBound (alSet st.progress f b.time) tr := by
        intro fw hfw b2 hmem u hu
        rcases mem_alSet_imp _ _ _ fw hfw with hfw2 | hfw2
        · rw [hfw2]
          exact hfb b2 (by rw [hfw2] at hmem; exact hmem) u hu
        · exact hfut fw hfw2 b2 (List.mem_cons_of_mem _ hmem) u hu
      have hrec := ih ⟨alSet st.progress f b.time,
          (b.updates.foldl stashInsert st.stash).dropWhile
            (fun e => e.1 < (frontierOpt (alSet st.progress f b.time)).getD 0)⟩
        hsort2 hd2 hdom2 hfut2
      have hfrfut : batchLB ((frontierOpt (alSet st.progress f b.time)).getD 0) tr := by
        intro g b2 hmem u hu
        obtain ⟨x, hx, hxg⟩ := List.mem_map.mp (hdom2 g b2 hmem)
        exact le_trans (frontier_le (alSet st.progress f b.time) x hx)
          (hfut2 x hx b2 (by rw [hxg]; exact hmem) u hu)
      have hout1lt : ∀ a ∈ ((b.updates.foldl stashInsert st.stash).takeWhile
          (fun e => e.1 < (frontierOpt (alSet st.progress f b.time)).getD 0)).map
          (fun e => (⟨e.1, e.2⟩ : Batch)),
          a.time < (frontierOpt (alSet st.progress f b.time)).getD 0 := by
        intro a ha
        obtain ⟨x, hx, hxa⟩ := List.mem_map.mp ha
        rw [← hxa]
        exact of_decide_eq_true (mem_takeWhile_sub _ _ x hx).2
      constructor
      · rw [runC_cons_out, step_batch, absorbBatch_out]
        rw [List.pairwise_append]
        refine ⟨?_, ?_, ?_⟩
        · exact List.pairwise_map.mpr (pairwise_takeWhile _ _ _ hsort1)
        · exact hrec.1
        · intro a ha c hc
          have h1 := hout1lt a ha
          have h2 := hrec.2 ((frontierOpt (alSet st.progress f b.time)).getD 0)
            (dropWhile_lt_ge _ _ hsort1) hfrfut c hc
          omega
      · intro lb hlb hflb
        rw [runC_cons_out, step_batch, absorbBatch_out]
        intro ob hob
        rcases List.mem_append.mp hob with hob | hob
        · obtain ⟨x, hx, hxa⟩ := List.mem_map.mp hob
          have hxs := (mem_takeWhile_sub _ _ x hx).1
          have hxlb : lb ≤ x.1 := by
            rcases mem_stashFold_key b.updates st.stash x hxs with h | h
            · obtain ⟨y, hy, hxy⟩ := List.mem_map.mp h
              exact hxy ▸ hlb y hy
            · obtain ⟨u, hu, hxu⟩ := h
              rw [hxu]
              exact hflb f b (List.mem_cons_self _ _) u hu
          rw [← hxa]
          exact hxlb
        · have hlb2 : ∀ e2 ∈ (b.updates.foldl stashInsert st.stash).dropWhile
              (fun e => e.1 < (frontierOpt (alSet st.progress f b.time)).getD 0),
              lb ≤ e2.1 := by
            intro e2 he2
            rcases mem_stashFold_key b.updates st.stash e2
                (mem_dropWhile_sub _ _ e2 he2) with h | h
            · obtain ⟨y, hy, hxy⟩ := List.mem_map.mp h
              exact hxy ▸ hlb y hy
            · obtain ⟨u, hu, hxu⟩ := h
              rw [hxu]
              exact hflb f b (List.mem_cons_self _ _) u hu
          exact hrec.2 lb hlb2
            (fun g b2 hm u hu => hflb g b2 (List.mem_cons_of_mem _ hm) u hu) ob hob

/-! ## C1 — frontier safety -/

/-- C1: assuming the watermark invariant — every update in a batch lies
strictly below the batch time, no update arrives below a previously emitted
watermark of its feed, batches come only from subscribed feeds, and a closed
feed stays silent — then for every interleaving of per-feed batches (a) the
batches the Collector releases come out in strictly ascending time order,
and (b) at every absorption step each released stash bucket's key is
strictly below every watermark in the progress map at the moment of release
(so every still-open feed has reported strictly past it), the released
batch carrying exactly the updates of that time. -/
theorem c1_frontier_safety (fs : List Nat) (tr : List Ev) (hv : validTrace fs tr = true) :
    List.Pairwise (fun a b : Batch => a.time < b.time) (runC (initCState fs) tr).2
    ∧ ∀ tr1 f b tr2, tr = tr1 ++ Ev.batch f b :: tr2 →
        ∀ rb ∈ (absorbBatch (runC (initCState fs) tr1).1 f b).2,
          (∀ gw ∈ (absorbBatch (runC (initCState fs) tr1).1 f b).1.progress,
            rb.time < gw.2)
          ∧ ∀ u ∈ rb.updates, u.time = rb.time := by
  rw [validTrace, Bool.and_eq_true] at hv
  obtain ⟨hall, hdisc⟩ := hv
  constructor
  · have hdom : domOK (initCState fs).progress tr := by
      intro g b2 hmem
      have h := List.all_eq_true.mp hall _ hmem
      rw [Bool.and_eq_true] at h
      have hknown : g ∈ fs := of_decide_eq_true h.2
      show g ∈ (fs.map (fun f => (f, 0))).map Prod.fst
      rw [List.map_map]
      simpa using hknown
    have hfut : futBound (initCState fs).progress tr := by
      intro fw hfw b2 hmem u hu
      obtain ⟨g, hg, hgfw⟩ := List.mem_map.mp hfw
      rw [← hgfw]
      exact Nat.zero_le _
    exact (runC_ordered tr (initCState fs) List.Pairwise.nil hdisc hdom hfut).1
  · intro tr1 f b tr2 htr
    have htimes : stashTimes (runC (initCState fs) tr1).1.stash :=
      runC_times tr1 (initCState fs) (by intro x hx; simp [initCState] at hx)
    intro rb hrb
    rw [absorbBatch_out] at hrb
    obtain ⟨x, hx, hxa⟩ := List.mem_map.mp hrb
    subst hxa
    constructor
    · intro gw hgw
      rw [absorbBatch_progress] at hgw
      exact lt_of_lt_of_le (of_decide_eq_true (mem_takeWhile_sub _ _ x hx).2)
        (frontier_le _ gw hgw)
    · intro u hu
      exact stashFold_times b.updates _ htimes x (mem_takeWhile_sub _ _ x hx).1 u hu

/-- C1 witness: feeds 0 and 1; feed 0 reports watermark 2 with an update at
time 1, then feed 1 reports watermark 3; the update is released exactly when
both feeds have passed its time, the output is time-ordered, and the release
happens with every open watermark strictly above it. -/
theorem c1_witness :
    validTrace [0, 1] trOrdered = true
    ∧ List.Pairwise (fun a b : Batch => a.time < b.time) (runC (initCState [0, 1]) trOrdered).2
    ∧ (runC (initCState [0, 1]) trOrdered).2 = [⟨1, [updOne]⟩] := by
  refine ⟨by decide, (c1_frontier_safety [0, 1] trOrdered (by decide)).1, by decide⟩

end Mzprof
